import Mathlib

/-!
# Verification of the measured-move strategy core

Shallow embedding of the repository's core algorithms:

* `indicators.py`: `calculate_atr`, `zigzag_pivots`, `dynamic_zigzag`;
* `strategy.py`: `MeasuredMove`, `MeasuredMoveStrategy.analyze`,
  `MeasuredMoveStrategy.get_active_moves`.

Prices are embedded as rationals (`ℚ`); bar timestamps are embedded as bar
indices (`ℕ`), which matches how the code addresses rows of the data frame.
Division by zero in `ℚ` yields `0`; every place where the Python code can
actually divide is either guarded in the source (`retracement_pct`) or noted
at the definition site.
-/

/-- One OHLC row of the input data frame.  Only the fields the core reads
(`high`, `low`, `close`, `volume`) are modelled. -/
structure Bar where
  high : ℚ
  low : ℚ
  close : ℚ
  volume : ℚ
deriving DecidableEq, Repr

/-- One emitted pivot: the Python tuple `(index, type, value)` appended to
`pivots` inside `zigzag_pivots`.  `ptype` is `1` for a High and `-1` for a
Low, exactly as in the source. -/
structure Pivot where
  idx : ℕ
  ptype : ℤ
  val : ℚ
deriving DecidableEq, Repr

/-- The loop state of `zigzag_pivots`: trend flag, running extremes with
their bar indices, and the list of pivots emitted so far. -/
structure ZigState where
  trend : ℤ
  lastHighIdx : ℕ
  lastLowIdx : ℕ
  lastHigh : ℚ
  lastLow : ℚ
  pivots : List Pivot
deriving DecidableEq, Repr

/-- One iteration of the `for i in range(1, n)` loop body of
`zigzag_pivots` (src/indicators.py lines 47-97), processing bar `i`.
The minimum-bar gap is compared over `ℤ` as Python compares unbounded
integers. -/
def zigzagStep (dev : ℚ) (minBars : ℕ) (s : ZigState) (ib : ℕ × Bar) : ZigState :=
  let i := ib.1
  let b := ib.2
  if s.trend = 0 then
    if b.high > s.lastLow * (1 + dev) then
      { s with trend := 1,
               pivots := s.pivots ++ [⟨s.lastLowIdx, -1, s.lastLow⟩],
               lastHighIdx := i, lastHigh := b.high }
    else if b.low < s.lastHigh * (1 - dev) then
      { s with trend := -1,
               pivots := s.pivots ++ [⟨s.lastHighIdx, 1, s.lastHigh⟩],
               lastLowIdx := i, lastLow := b.low }
    else
      let s1 := if b.high > s.lastHigh then { s with lastHigh := b.high, lastHighIdx := i } else s
      if b.low < s1.lastLow then { s1 with lastLow := b.low, lastLowIdx := i } else s1
  else if s.trend = 1 then
    if b.high > s.lastHigh then
      { s with lastHigh := b.high, lastHighIdx := i }
    else if b.low < s.lastHigh * (1 - dev) then
      if (i : ℤ) - (s.lastHighIdx : ℤ) ≥ (minBars : ℤ) ∨ minBars = 0 then
        { s with trend := -1,
                 pivots := s.pivots ++ [⟨s.lastHighIdx, 1, s.lastHigh⟩],
                 lastLow := b.low, lastLowIdx := i }
      else s
    else s
  else if s.trend = -1 then
    if b.low < s.lastLow then
      { s with lastLow := b.low, lastLowIdx := i }
    else if b.high > s.lastLow * (1 + dev) then
      if (i : ℤ) - (s.lastLowIdx : ℤ) ≥ (minBars : ℤ) ∨ minBars = 0 then
        { s with trend := 1,
                 pivots := s.pivots ++ [⟨s.lastLowIdx, -1, s.lastLow⟩],
                 lastHigh := b.high, lastHighIdx := i }
      else s
    else s
  else s

/-- The "add the final pending pivot" block of `zigzag_pivots`
(src/indicators.py lines 99-103). -/
def zigzagFinal (s : ZigState) : List Pivot :=
  if s.trend = 1 then s.pivots ++ [⟨s.lastHighIdx, 1, s.lastHigh⟩]
  else if s.trend = -1 then s.pivots ++ [⟨s.lastLowIdx, -1, s.lastLow⟩]
  else s.pivots

/-- `zigzag_pivots` (src/indicators.py lines 21-113), returning the emitted
pivot list in emission order.  The Python function indexes `highs[0]` and
`lows[0]`, so it is only ever called on a nonempty frame; the empty case is
mapped to the empty pivot list. -/
def zigzagPivots (bars : List Bar) (dev : ℚ) (minBars : ℕ) : List Pivot :=
  match bars with
  | [] => []
  | b0 :: rest =>
    let init : ZigState := ⟨0, 0, 0, b0.high, b0.low, []⟩
    zigzagFinal ((List.enumFrom 1 rest).foldl (zigzagStep dev minBars) init)

/-- The per-bar true-range values of `calculate_atr` (src/indicators.py
lines 4-19).  For bar 0 the shifted close is missing and the pandas
row-wise `max` skips it, leaving `high - low`. -/
def trueRanges (bars : List Bar) : List ℚ :=
  match bars with
  | [] => []
  | b0 :: rest =>
    (b0.high - b0.low) ::
      (rest.zip (b0 :: rest)).map
        (fun pb => max (pb.1.high - pb.1.low)
          (max |pb.1.high - pb.2.close| |pb.1.low - pb.2.close|))

/-- The ATR series of `calculate_atr`: a rolling mean of the true range over
`period` bars, undefined (`none`, pandas `NaN`) until a full window exists. -/
def atrSeries (bars : List Bar) (period : ℕ) : List (Option ℚ) :=
  let trs := trueRanges bars
  (List.range bars.length).map
    (fun i => if period ≤ i + 1 then
        some (((trs.drop (i + 1 - period)).take period).sum / (period : ℚ))
      else none)

/-- The deviation threshold computed by `dynamic_zigzag`
(src/indicators.py lines 115-135): mean of the last 30 defined ATR values
times the multiplier over the last close, defaulting to 5% when that mean is
undefined or the last close is zero, floored at `minDeviation`. -/
def dynamicDeviation (bars : List Bar) (atrMultiplier : ℚ) (minDeviation : ℚ) : ℚ :=
  let atrs := atrSeries bars 14
  let window := (atrs.drop (atrs.length - 30)).filterMap id
  let currentPrice := ((bars.map Bar.close).getLastD 0)
  let deviation :=
    if window = [] ∨ currentPrice = 0 then (5 : ℚ) / 100
    else (window.sum / (window.length : ℚ)) * atrMultiplier / currentPrice
  max deviation minDeviation

/-- The sparse per-bar pivot representation read back densely: `zigzag_pivots`
writes each emitted pivot into per-bar value/type arrays (later writes to the
same bar overwrite earlier ones), and `analyze` then iterates the non-empty
rows in bar order (src/indicators.py lines 106-111, src/strategy.py
lines 57-64). -/
def pivotData (n : ℕ) (pivs : List Pivot) : List Pivot :=
  (List.range n).filterMap (fun j => (pivs.filter (fun q => q.idx == j)).getLast?)

/-- The `MeasuredMove` dataclass of src/strategy.py lines 7-24.
`completion_pct` keeps its dataclass default `0.0`; `analyze` never assigns
it. -/
structure MeasuredMove where
  start_idx : ℕ
  mid_idx : ℕ
  end_idx : ℕ
  start_price : ℚ
  mid_price : ℚ
  end_price : ℚ
  projected_target : ℚ
  direction : String
  completion_pct : ℚ := 0
  current_price_at_analysis : ℚ := 0
  proximity_to_c_pct : ℚ := 0
  proximity_to_d_pct : ℚ := 0
  retracement_pct : ℚ := 0
deriving DecidableEq, Repr

/-- The keyword parameters of `MeasuredMoveStrategy.analyze`
(src/strategy.py line 34), with the source's defaults. -/
structure AnalyzeParams where
  atr_multiplier : ℚ := 3
  min_bars : ℕ := 10
  strict_fib : Bool := false
  use_ema_filter : Bool := false
  use_volume_filter : Bool := false
  use_time_filter : Bool := false
  use_rsi_filter : Bool := false
deriving DecidableEq, Repr

/-- Modelled from the spec: `strategy.py` imports `calculate_rsi` from
`indicators`, but no definition of it exists under src; the spec only says it
yields an RSI-14 value per timestamp which may be undefined there.  It is
therefore modelled as an abstract assignment of an optional rational to each
bar index (`none` = undefined / missing row). -/
def RsiSeries : Type := ℕ → Option ℚ

/-- `self.df['close'].ewm(span=200, adjust=False).mean()` tail recursion:
`e_i = α·close_i + (1-α)·e_(i-1)` with `α = 2/(200+1)`. -/
def ewmAux (a : ℚ) : ℚ → List ℚ → List ℚ
  | _, [] => []
  | prev, c :: cs => (a * c + (1 - a) * prev) :: ewmAux a (a * c + (1 - a) * prev) cs

/-- The EMA-200 series used by the trend filter (src/strategy.py line 41);
with `adjust=False` the first value is the first close. -/
def ewm200 : List ℚ → List ℚ
  | [] => []
  | c :: cs => c :: ewmAux (2 / 201) c cs

/-- `self.df.loc[a:b]` for bar-index labels: the inclusive slice of rows
`a, …, b`. -/
def barSlice (bars : List Bar) (a b : ℕ) : List Bar :=
  (bars.drop a).take (b + 1 - a)

/-- `pandas.Series.mean` for a dense slice: sum over length.  (For the slices
taken inside `analyze` the list is nonempty, so the `ℚ` zero-denominator
convention is never exercised.) -/
def listMean (l : List ℚ) : ℚ := l.sum / (l.length : ℚ)

/-- Bullish EMA-200 gate rejection (src/strategy.py lines 89-97): active only
when the filter flag is set; a missing row (`KeyError`) is a pass. -/
def emaRejectBull (flag : Bool) (ema : List ℚ) (c : Pivot) : Bool :=
  flag && (match ema.get? c.idx with
           | some v => decide (c.val < v)
           | none => false)

/-- Bearish EMA-200 gate rejection (src/strategy.py lines 162-169). -/
def emaRejectBear (flag : Bool) (ema : List ℚ) (c : Pivot) : Bool :=
  flag && (match ema.get? c.idx with
           | some v => decide (v < c.val)
           | none => false)

/-- Fibonacci gate rejection (src/strategy.py lines 106-108 and 177-179):
reject when `not (0.382 <= retracement_pct <= 0.786)`. -/
def fibReject (flag : Bool) (pct : ℚ) : Bool :=
  flag && !(decide ((382 : ℚ)/1000 ≤ pct ∧ pct ≤ (786 : ℚ)/1000))

/-- Volume gate rejection (src/strategy.py lines 111-115 and 182-186):
reject when the mean retracement-leg volume is ≥ the mean impulse-leg
volume. -/
def volumeReject (flag : Bool) (bars : List Bar) (a b c : Pivot) : Bool :=
  flag && decide (listMean ((barSlice bars a.idx b.idx).map Bar.volume) ≤
                  listMean ((barSlice bars b.idx c.idx).map Bar.volume))

/-- Time-symmetry gate rejection (src/strategy.py lines 118-122 and 189-193):
reject when the retracement leg spans more than twice as many bars as the
impulse leg. -/
def timeReject (flag : Bool) (bars : List Bar) (a b c : Pivot) : Bool :=
  flag && decide (2 * (barSlice bars a.idx b.idx).length <
                  (barSlice bars b.idx c.idx).length)

/-- Bullish RSI gate rejection (src/strategy.py lines 125-131): reject when
the RSI value at C's bar exists and exceeds 70; an undefined value is a
pass. -/
def rsiRejectBull (flag : Bool) (rv : Option ℚ) : Bool :=
  flag && (match rv with
           | some r => decide ((70 : ℚ) < r)
           | none => false)

/-- Bearish RSI gate rejection (src/strategy.py lines 196-202): reject when
the RSI value at C's bar exists and is below 30. -/
def rsiRejectBear (flag : Bool) (rv : Option ℚ) : Bool :=
  flag && (match rv with
           | some r => decide (r < (30 : ℚ))
           | none => false)

/-- Construction of a bullish `MeasuredMove` from an accepted triplet
(src/strategy.py lines 99-154). -/
def mkBullMove (cur : ℚ) (a b c : Pivot) : MeasuredMove :=
  let impulse := b.val - a.val
  let retr := b.val - c.val
  let pct := if impulse ≠ 0 then retr / impulse else 0
  let target := c.val + impulse
  { start_idx := a.idx, mid_idx := b.idx, end_idx := c.idx,
    start_price := a.val, mid_price := b.val, end_price := c.val,
    projected_target := target, direction := "Bullish",
    current_price_at_analysis := cur,
    proximity_to_c_pct := |cur - c.val| / c.val,
    proximity_to_d_pct := |cur - target| / target,
    retracement_pct := pct }

/-- Construction of a bearish `MeasuredMove` from an accepted triplet
(src/strategy.py lines 171-226). -/
def mkBearMove (cur : ℚ) (a b c : Pivot) : MeasuredMove :=
  let impulse := a.val - b.val
  let retr := c.val - b.val
  let pct := if impulse ≠ 0 then retr / impulse else 0
  let target := c.val - impulse
  { start_idx := a.idx, mid_idx := b.idx, end_idx := c.idx,
    start_price := a.val, mid_price := b.val, end_price := c.val,
    projected_target := target, direction := "Bearish",
    current_price_at_analysis := cur,
    proximity_to_c_pct := |cur - c.val| / c.val,
    proximity_to_d_pct := |cur - target| / target,
    retracement_pct := pct }

/-- The body of the triplet loop of `analyze` (src/strategy.py lines 77-226)
for one candidate triplet `(A, B, C)`: shape and higher-low / lower-high
check, then the gate chain in source order (EMA, Fibonacci, volume, time,
RSI), then projection. -/
def tripletMove (bars : List Bar) (p : AnalyzeParams) (ema : List ℚ)
    (rsi : RsiSeries) (cur : ℚ) (a b c : Pivot) : Option MeasuredMove :=
  if a.ptype = -1 ∧ b.ptype = 1 ∧ c.ptype = -1 then
    if c.val > a.val then
      if emaRejectBull p.use_ema_filter ema c then none
      else if fibReject p.strict_fib ((mkBullMove cur a b c).retracement_pct) then none
      else if volumeReject p.use_volume_filter bars a b c then none
      else if timeReject p.use_time_filter bars a b c then none
      else if rsiRejectBull p.use_rsi_filter (rsi c.idx) then none
      else some (mkBullMove cur a b c)
    else none
  else if a.ptype = 1 ∧ b.ptype = -1 ∧ c.ptype = 1 then
    if c.val < a.val then
      if emaRejectBear p.use_ema_filter ema c then none
      else if fibReject p.strict_fib ((mkBearMove cur a b c).retracement_pct) then none
      else if volumeReject p.use_volume_filter bars a b c then none
      else if timeReject p.use_time_filter bars a b c then none
      else if rsiRejectBear p.use_rsi_filter (rsi c.idx) then none
      else some (mkBearMove cur a b c)
    else none
  else none

/-- The dense pivot list `pivot_data` that one `analyze` call iterates:
`dynamic_zigzag` output written into the per-bar arrays and read back in bar
order (src/strategy.py lines 49-64). -/
def analyzePivotData (bars : List Bar) (p : AnalyzeParams) : List Pivot :=
  pivotData bars.length
    (zigzagPivots bars (dynamicDeviation bars p.atr_multiplier (1/100)) p.min_bars)

/-- The batch of Moves one `analyze` call appends to `self.moves`
(src/strategy.py lines 66-226): empty when fewer than 3 pivots exist,
otherwise the accepted triplets among the last 5 pivots, in scan order. -/
def foundMoves (bars : List Bar) (p : AnalyzeParams) (rsi : RsiSeries) :
    List MeasuredMove :=
  let pd := analyzePivotData bars p
  if pd.length < 3 then []
  else
    let ema := if p.use_ema_filter then ewm200 (bars.map Bar.close) else []
    let cur := (bars.map Bar.close).getLastD 0
    let start := pd.length - 5
    (List.range' start (pd.length - 2 - start)).filterMap
      (fun i => match pd.get? i, pd.get? (i+1), pd.get? (i+2) with
                | some a, some b, some c => tripletMove bars p ema rsi cur a b c
                | _, _, _ => none)

/-- The mutable per-instance state of a `MeasuredMoveStrategy` object that
`analyze` touches: `self.pivots`/`self.pivot_types` (here the compacted
pivot list, `none` before the first call) and the accumulated `self.moves`
list. -/
structure StrategyState where
  pivots : Option (List Pivot) := none
  moves : List MeasuredMove := []
deriving DecidableEq, Repr

/-- One call of `MeasuredMoveStrategy.analyze`: recomputes and stores the
pivots and **appends** the found Moves to `self.moves`
(src/strategy.py lines 49, 155, 226). -/
def analyze (bars : List Bar) (p : AnalyzeParams) (rsi : RsiSeries)
    (s : StrategyState) : StrategyState :=
  { pivots := some (analyzePivotData bars p),
    moves := s.moves ++ foundMoves bars p rsi }

/-- `MeasuredMoveStrategy.get_active_moves` (src/strategy.py lines 228-231):
the last five entries of the accumulated move list. -/
def get_active_moves (s : StrategyState) : List MeasuredMove :=
  s.moves.drop (s.moves.length - 5)

/-- An everywhere-undefined RSI series (the RSI filter is off in most of the
concrete runs below, so the series is never consulted). -/
def rsiNone : RsiSeries := fun _ => none

/-- A concrete six-bar series (fields `high, low, close, volume`) whose
zigzag pivots under the computed deviation (1/20, the short-series default)
form Low(100) → High(120) → Low(108) → High(118), yielding one bullish and
one bearish measured move. -/
def posBars : List Bar :=
  [⟨100, 100, 100, 0⟩, ⟨110, 110, 110, 0⟩, ⟨120, 115, 118, 0⟩,
   ⟨112, 110, 111, 0⟩, ⟨109, 108, 109, 0⟩, ⟨118, 114, 115, 0⟩]

/-- The same pivot geometry shifted to negative prices: the zigzag pivots are
Low(-100) → High(-60) → Low(-76) → High(-65). -/
def negBars : List Bar :=
  [⟨-100, -100, -100, 0⟩, ⟨-80, -81, -80, 0⟩, ⟨-60, -61, -61, 0⟩,
   ⟨-70, -75, -72, 0⟩, ⟨-74, -76, -75, 0⟩, ⟨-65, -70, -50, 0⟩]

/-- A strictly monotonically increasing three-bar series (both highs and
lows rise bar over bar). -/
def incBars : List Bar :=
  [⟨10, 5, 7, 0⟩, ⟨20, 15, 17, 0⟩, ⟨30, 25, 27, 0⟩]

/-- `analyze` parameters: minimum bar gap 0, every filter off. -/
def pPlain : AnalyzeParams := { min_bars := 0 }

/-- `analyze` parameters: minimum bar gap 0, Fibonacci gate on. -/
def pFib : AnalyzeParams := { min_bars := 0, strict_fib := true }

/-- `analyze` parameters: minimum bar gap 0, RSI gate on. -/
def pRsi : AnalyzeParams := { min_bars := 0, use_rsi_filter := true }

/-- The bullish move `analyze` finds on `posBars`. -/
def mBull : MeasuredMove :=
  { start_idx := 0, mid_idx := 2, end_idx := 4,
    start_price := 100, mid_price := 120, end_price := 108,
    projected_target := 128, direction := "Bullish",
    current_price_at_analysis := 115,
    proximity_to_c_pct := 7/108, proximity_to_d_pct := 13/128,
    retracement_pct := 3/5 }

/-- The bearish move `analyze` finds on `posBars`. -/
def mBear : MeasuredMove :=
  { start_idx := 2, mid_idx := 4, end_idx := 5,
    start_price := 120, mid_price := 108, end_price := 118,
    projected_target := 106, direction := "Bearish",
    current_price_at_analysis := 115,
    proximity_to_c_pct := 3/118, proximity_to_d_pct := 9/106,
    retracement_pct := 5/6 }

/-!
## Helper lemmas about one `analyze` call
-/

lemma gate_chain {α : Type} {g : Prop} [Decidable g] {x : Option α} {m : α}
    (h : (if g then (none : Option α) else x) = some m) : ¬g ∧ x = some m := by
  by_cases hg : g
  · rw [if_pos hg] at h; exact absurd h (by simp)
  · rw [if_neg hg] at h; exact ⟨hg, h⟩

/-- Every Move returned by the triplet loop body comes from one of the two
shape branches, carries the corresponding construction, and survived the
Fibonacci gate. -/
lemma tripletMove_eq_some {bars : List Bar} {p : AnalyzeParams} {ema : List ℚ}
    {rsi : RsiSeries} {cur : ℚ} {a b c : Pivot} {m : MeasuredMove}
    (h : tripletMove bars p ema rsi cur a b c = some m) :
    (a.ptype = -1 ∧ b.ptype = 1 ∧ c.ptype = -1 ∧ a.val < c.val ∧
      ¬(fibReject p.strict_fib (mkBullMove cur a b c).retracement_pct = true) ∧
      m = mkBullMove cur a b c) ∨
    (a.ptype = 1 ∧ b.ptype = -1 ∧ c.ptype = 1 ∧ c.val < a.val ∧
      ¬(fibReject p.strict_fib (mkBearMove cur a b c).retracement_pct = true) ∧
      m = mkBearMove cur a b c) := by
  unfold tripletMove at h
  by_cases hb : a.ptype = -1 ∧ b.ptype = 1 ∧ c.ptype = -1
  · rw [if_pos hb] at h
    by_cases hca : c.val > a.val
    · rw [if_pos hca] at h
      obtain ⟨-, h⟩ := gate_chain h
      obtain ⟨g2, h⟩ := gate_chain h
      obtain ⟨-, h⟩ := gate_chain h
      obtain ⟨-, h⟩ := gate_chain h
      obtain ⟨-, h⟩ := gate_chain h
      exact Or.inl ⟨hb.1, hb.2.1, hb.2.2, hca, g2, (Option.some.inj h).symm⟩
    · rw [if_neg hca] at h; exact Option.noConfusion h
  · rw [if_neg hb] at h
    by_cases hb2 : a.ptype = 1 ∧ b.ptype = -1 ∧ c.ptype = 1
    · rw [if_pos hb2] at h
      by_cases hca : c.val < a.val
      · rw [if_pos hca] at h
        obtain ⟨-, h⟩ := gate_chain h
        obtain ⟨g2, h⟩ := gate_chain h
        obtain ⟨-, h⟩ := gate_chain h
        obtain ⟨-, h⟩ := gate_chain h
        obtain ⟨-, h⟩ := gate_chain h
        exact Or.inr ⟨hb2.1, hb2.2.1, hb2.2.2, hca, g2, (Option.some.inj h).symm⟩
      · rw [if_neg hca] at h; exact Option.noConfusion h
    · rw [if_neg hb2] at h; exact Option.noConfusion h

/-- Membership in one call's found-move batch unfolds to a consecutive
pivot triplet of the compacted pivot list together with an accepting run of
the triplet loop body. -/
lemma mem_foundMoves {bars : List Bar} {p : AnalyzeParams} {rsi : RsiSeries}
    {m : MeasuredMove} (hm : m ∈ foundMoves bars p rsi) :
    ∃ i a b c, (analyzePivotData bars p).get? i = some a ∧
      (analyzePivotData bars p).get? (i + 1) = some b ∧
      (analyzePivotData bars p).get? (i + 2) = some c ∧
      tripletMove bars p (if p.use_ema_filter then ewm200 (bars.map Bar.close) else [])
        rsi ((bars.map Bar.close).getLastD 0) a b c = some m := by
  unfold foundMoves at hm
  by_cases hlen : (analyzePivotData bars p).length < 3
  · rw [if_pos hlen] at hm; exact absurd hm (by simp)
  · rw [if_neg hlen] at hm
    obtain ⟨i, -, hfi⟩ := List.mem_filterMap.mp hm
    rcases ha : (analyzePivotData bars p).get? i with - | a <;> rw [ha] at hfi
    · exact Option.noConfusion hfi
    rcases hbg : (analyzePivotData bars p).get? (i + 1) with - | b <;> rw [hbg] at hfi
    · exact Option.noConfusion hfi
    rcases hc : (analyzePivotData bars p).get? (i + 2) with - | c <;> rw [hc] at hfi
    · exact Option.noConfusion hfi
    exact ⟨i, a, b, c, ha, hbg, hc, hfi⟩

/-- The Move `m` arises from consecutive pivots at positions `i, i+1, i+2`
of the compacted pivot list of this `analyze` call, with pivot types
`t1, t2, t3` and anchor timestamps/prices copied into `m`. -/
def TripletShapeOf (bars : List Bar) (p : AnalyzeParams) (t1 t2 t3 : ℤ)
    (m : MeasuredMove) : Prop :=
  ∃ i a b c, (analyzePivotData bars p).get? i = some a ∧
    (analyzePivotData bars p).get? (i + 1) = some b ∧
    (analyzePivotData bars p).get? (i + 2) = some c ∧
    a.ptype = t1 ∧ b.ptype = t2 ∧ c.ptype = t3 ∧
    m.start_idx = a.idx ∧ m.mid_idx = b.idx ∧ m.end_idx = c.idx ∧
    m.start_price = a.val ∧ m.mid_price = b.val ∧ m.end_price = c.val

/-- **C2.** Every Move produced by one `analyze` call has the directional
shape and retracement formula: a Bullish Move comes from a (Low, High, Low)
triplet with `price(C) > price(A)` and
`retracement_pct = (B − C)/(B − A)` (0 when the impulse is 0, with no
division failure); a Bearish Move comes from a (High, Low, High) triplet
with `price(C) < price(A)` and `retracement_pct = (C − B)/(A − B)`. -/
theorem move_shape_retracement (bars : List Bar) (p : AnalyzeParams)
    (rsi : RsiSeries) (m : MeasuredMove) (hm : m ∈ foundMoves bars p rsi) :
    (m.direction = "Bullish" ∨ m.direction = "Bearish") ∧
    (m.direction = "Bullish" →
      TripletShapeOf bars p (-1) 1 (-1) m ∧
      m.start_price < m.end_price ∧
      m.retracement_pct = (m.mid_price - m.end_price) / (m.mid_price - m.start_price) ∧
      (m.mid_price - m.start_price = 0 → m.retracement_pct = 0)) ∧
    (m.direction = "Bearish" →
      TripletShapeOf bars p 1 (-1) 1 m ∧
      m.end_price < m.start_price ∧
      m.retracement_pct = (m.end_price - m.mid_price) / (m.start_price - m.mid_price) ∧
      (m.start_price - m.mid_price = 0 → m.retracement_pct = 0)) := by
  obtain ⟨i, a, b, c, ha, hb, hc, ht⟩ := mem_foundMoves hm
  rcases tripletMove_eq_some ht with ⟨t1, t2, t3, hca, -, hmv⟩ | ⟨t1, t2, t3, hca, -, hmv⟩
  · subst hmv
    refine ⟨Or.inl rfl, fun _ => ⟨⟨i, a, b, c, ha, hb, hc, t1, t2, t3, ?_⟩, ?_, ?_, ?_⟩,
      fun hdir => absurd hdir (by simp [mkBullMove])⟩
    · simp [mkBullMove]
    · simpa [mkBullMove] using hca
    · by_cases h0 : b.val - a.val = 0
      · simp [mkBullMove, h0]
      · simp [mkBullMove, h0]
    · intro h0
      simp only [mkBullMove] at h0 ⊢
      simp [h0]
  · subst hmv
    refine ⟨Or.inr rfl, fun hdir => absurd hdir (by simp [mkBearMove]),
      fun _ => ⟨⟨i, a, b, c, ha, hb, hc, t1, t2, t3, ?_⟩, ?_, ?_, ?_⟩⟩
    · simp [mkBearMove]
    · simpa [mkBearMove] using hca
    · by_cases h0 : a.val - b.val = 0
      · simp [mkBearMove, h0]
      · simp [mkBearMove, h0]
    · intro h0
      simp only [mkBearMove] at h0 ⊢
      simp [h0]

/-- **C2 witness**: the bullish move found on `posBars` instantiates the
shape/retracement theorem. -/
theorem move_shape_retracement_witness :
    mBull ∈ foundMoves posBars pPlain rsiNone ∧
    ((mBull.direction = "Bullish" ∨ mBull.direction = "Bearish") ∧
     (mBull.direction = "Bullish" →
       TripletShapeOf posBars pPlain (-1) 1 (-1) mBull ∧
       mBull.start_price < mBull.end_price ∧
       mBull.retracement_pct =
         (mBull.mid_price - mBull.end_price) / (mBull.mid_price - mBull.start_price) ∧
       (mBull.mid_price - mBull.start_price = 0 → mBull.retracement_pct = 0)) ∧
     (mBull.direction = "Bearish" →
       TripletShapeOf posBars pPlain 1 (-1) 1 mBull ∧
       mBull.end_price < mBull.start_price ∧
       mBull.retracement_pct =
         (mBull.end_price - mBull.mid_price) / (mBull.start_price - mBull.mid_price) ∧
       (mBull.start_price - mBull.mid_price = 0 → mBull.retracement_pct = 0))) :=
  ⟨by with_unfolding_all decide,
   move_shape_retracement posBars pPlain rsiNone mBull (by with_unfolding_all decide)⟩

/-- **C3.** Every Move produced by one `analyze` call projects the target D
as `price(C) + (price(B) − price(A))` for Bullish and
`price(C) − (price(A) − price(B))` for Bearish moves. -/
theorem projected_target_formula (bars : List Bar) (p : AnalyzeParams)
    (rsi : RsiSeries) (m : MeasuredMove) (hm : m ∈ foundMoves bars p rsi) :
    (m.direction = "Bullish" →
      m.projected_target = m.end_price + (m.mid_price - m.start_price)) ∧
    (m.direction = "Bearish" →
      m.projected_target = m.end_price - (m.start_price - m.mid_price)) := by
  obtain ⟨i, a, b, c, -, -, -, ht⟩ := mem_foundMoves hm
  rcases tripletMove_eq_some ht with ⟨-, -, -, -, -, hmv⟩ | ⟨-, -, -, -, -, hmv⟩ <;> subst hmv
  · exact ⟨fun _ => by simp [mkBullMove], fun hdir => absurd hdir (by simp [mkBullMove])⟩
  · exact ⟨fun hdir => absurd hdir (by simp [mkBearMove]), fun _ => by simp [mkBearMove]⟩

/-- **C3 witness**: the bearish move found on `posBars` instantiates the
target-projection theorem. -/
theorem projected_target_formula_witness :
    mBear ∈ foundMoves posBars pPlain rsiNone ∧
    ((mBear.direction = "Bullish" →
       mBear.projected_target = mBear.end_price + (mBear.mid_price - mBear.start_price)) ∧
     (mBear.direction = "Bearish" →
       mBear.projected_target = mBear.end_price - (mBear.start_price - mBear.mid_price))) :=
  ⟨by with_unfolding_all decide,
   projected_target_formula posBars pPlain rsiNone mBear (by with_unfolding_all decide)⟩

/-- **C4.** With the Fibonacci gate enabled every Move returned by one
`analyze` call has `retracement_pct ∈ [0.382, 0.786]`, and every candidate
triplet the loop body accepts (producing `some` Move) has its retracement
inside that band — so a triplet outside the band produces no Move. -/
theorem fib_gate_band (bars : List Bar) (p : AnalyzeParams) (rsi : RsiSeries)
    (hf : p.strict_fib = true) :
    (∀ m ∈ foundMoves bars p rsi,
      (382 : ℚ)/1000 ≤ m.retracement_pct ∧ m.retracement_pct ≤ (786 : ℚ)/1000) ∧
    (∀ (ema : List ℚ) (cur : ℚ) (a b c : Pivot) (m : MeasuredMove),
      tripletMove bars p ema rsi cur a b c = some m →
      (382 : ℚ)/1000 ≤ m.retracement_pct ∧ m.retracement_pct ≤ (786 : ℚ)/1000) := by
  have key : ∀ (ema : List ℚ) (cur : ℚ) (a b c : Pivot) (m : MeasuredMove),
      tripletMove bars p ema rsi cur a b c = some m →
      (382 : ℚ)/1000 ≤ m.retracement_pct ∧ m.retracement_pct ≤ (786 : ℚ)/1000 := by
    intro ema cur a b c m ht
    rcases tripletMove_eq_some ht with ⟨-, -, -, -, g2, hmv⟩ | ⟨-, -, -, -, g2, hmv⟩ <;>
      subst hmv <;> simpa [fibReject, hf] using g2
  refine ⟨fun m hm => ?_, key⟩
  obtain ⟨i, a, b, c, -, -, -, ht⟩ := mem_foundMoves hm
  exact key _ _ a b c m ht

/-- **C4 witness**: on `posBars` with the Fibonacci gate on, the retained
bullish move (retracement 0.6) lies in the band. -/
theorem fib_gate_band_witness :
    pFib.strict_fib = true ∧
    ((∀ m ∈ foundMoves posBars pFib rsiNone,
       (382 : ℚ)/1000 ≤ m.retracement_pct ∧ m.retracement_pct ≤ (786 : ℚ)/1000) ∧
     (∀ (ema : List ℚ) (cur : ℚ) (a b c : Pivot) (m : MeasuredMove),
       tripletMove posBars pFib ema rsiNone cur a b c = some m →
       (382 : ℚ)/1000 ≤ m.retracement_pct ∧ m.retracement_pct ≤ (786 : ℚ)/1000)) :=
  ⟨rfl, fib_gate_band posBars pFib rsiNone rfl⟩

/-- **C5 (amended).** Every Move produced by one `analyze` call has
non-negative proximity metrics *provided the corresponding denominator is
positive*: `proximity_to_c_pct ≥ 0` when `price(C) > 0` and
`proximity_to_d_pct ≥ 0` when `D > 0`.  (The code divides by the signed
`price(C)` and `D`, not their absolute values, so for negative anchors the
metric is negative; see the counterexample.) -/
theorem proximity_nonneg_of_pos (bars : List Bar) (p : AnalyzeParams)
    (rsi : RsiSeries) (m : MeasuredMove) (hm : m ∈ foundMoves bars p rsi) :
    (0 < m.end_price → 0 ≤ m.proximity_to_c_pct) ∧
    (0 < m.projected_target → 0 ≤ m.proximity_to_d_pct) := by
  obtain ⟨i, a, b, c, -, -, -, ht⟩ := mem_foundMoves hm
  rcases tripletMove_eq_some ht with ⟨-, -, -, -, -, hmv⟩ | ⟨-, -, -, -, -, hmv⟩ <;>
    subst hmv <;>
    exact ⟨fun hpos => by
        simp only [mkBullMove, mkBearMove] at hpos ⊢
        exact div_nonneg (abs_nonneg _) hpos.le,
      fun hpos => by
        simp only [mkBullMove, mkBearMove] at hpos ⊢
        exact div_nonneg (abs_nonneg _) hpos.le⟩

/-- **C5 counterexample**: on the negative-price series `negBars` the first
produced Move has `proximity_to_c_pct = −13/38 < 0`, refuting the claim that
proximity metrics are non-negative over any bar series. -/
theorem proximity_counterexample :
    ((foundMoves negBars pPlain rsiNone).map MeasuredMove.proximity_to_c_pct).head?
        = some (-13/38) ∧
    ((-13 : ℚ)/38 < 0) ∧
    ((foundMoves negBars pPlain rsiNone).any
        (fun m => decide (m.proximity_to_c_pct < 0)) = true) := by
  refine ⟨by with_unfolding_all decide, by norm_num, by with_unfolding_all decide⟩

/-- **C5 witness**: the bullish move on `posBars` has positive anchors and
non-negative proximities. -/
theorem proximity_nonneg_witness :
    mBull ∈ foundMoves posBars pPlain rsiNone ∧
    ((0 < mBull.end_price → 0 ≤ mBull.proximity_to_c_pct) ∧
     (0 < mBull.projected_target → 0 ≤ mBull.proximity_to_d_pct)) :=
  ⟨by with_unfolding_all decide,
   proximity_nonneg_of_pos posBars pPlain rsiNone mBull (by with_unfolding_all decide)⟩

/-- **C6 (amended).** For fixed bars and parameters the analysis is
deterministic: every call stores the same recomputed pivot list and appends
the same batch of Moves to `self.moves`.  Because `analyze` *appends* rather
than replaces, the accumulated list after a second call is the first batch
twice, so `get_active_moves` (last five of the accumulated list) agrees
between the calls exactly when the batch is empty. -/
theorem analyze_appends (bars : List Bar) (p : AnalyzeParams) (rsi : RsiSeries)
    (s : StrategyState) :
    (analyze bars p rsi s).pivots = some (analyzePivotData bars p) ∧
    (analyze bars p rsi s).moves = s.moves ++ foundMoves bars p rsi ∧
    (analyze bars p rsi (analyze bars p rsi s)).moves =
      s.moves ++ (foundMoves bars p rsi ++ foundMoves bars p rsi) ∧
    (foundMoves bars p rsi = [] →
      get_active_moves (analyze bars p rsi (analyze bars p rsi s)) =
        get_active_moves (analyze bars p rsi s)) := by
  refine ⟨rfl, rfl, by simp [analyze], fun h => by simp [analyze, h]⟩

/-- **C6 witness**: instantiated on the empty bar list, where the found
batch is empty and the two calls agree. -/
theorem analyze_appends_witness :
    (analyze [] pPlain rsiNone { }).pivots = some (analyzePivotData [] pPlain) ∧
    (analyze [] pPlain rsiNone { }).moves = [] ++ foundMoves [] pPlain rsiNone ∧
    (analyze [] pPlain rsiNone (analyze [] pPlain rsiNone { })).moves =
      [] ++ (foundMoves [] pPlain rsiNone ++ foundMoves [] pPlain rsiNone) ∧
    (foundMoves [] pPlain rsiNone = [] →
      get_active_moves (analyze [] pPlain rsiNone (analyze [] pPlain rsiNone { })) =
        get_active_moves (analyze [] pPlain rsiNone { })) :=
  analyze_appends [] pPlain rsiNone { }

/-- **C6 counterexample**: on `posBars` (two Moves found per call) the
result of `get_active_moves` after the second `analyze` call on the same
strategy object differs from the result after the first call — the claim
that repeated calls return identical output from `get_active_moves` fails. -/
theorem analyze_repeat_counterexample :
    get_active_moves (analyze posBars pPlain rsiNone (analyze posBars pPlain rsiNone { }))
      ≠ get_active_moves (analyze posBars pPlain rsiNone { }) := by
  with_unfolding_all decide

/-- **C7.** Frame property of the minimum-bar gate, Up state: when the bar
neither extends the running high nor — because the gap requirement fails and
`min_bars ≠ 0` — confirms the reversal candidate, the whole loop state
(trend, both running extremes and their indices, and the emitted pivots) is
exactly unchanged, so the very same comparison is re-applied to later bars;
symmetrically for the Down state. -/
theorem blocked_reversal_frame (dev : ℚ) (minBars : ℕ) (i : ℕ) (b : Bar)
    (s : ZigState) :
    (s.trend = 1 → ¬(b.high > s.lastHigh) → b.low < s.lastHigh * (1 - dev) →
      ¬((i : ℤ) - (s.lastHighIdx : ℤ) ≥ (minBars : ℤ) ∨ minBars = 0) →
      zigzagStep dev minBars s (i, b) = s) ∧
    (s.trend = -1 → ¬(b.low < s.lastLow) → b.high > s.lastLow * (1 + dev) →
      ¬((i : ℤ) - (s.lastLowIdx : ℤ) ≥ (minBars : ℤ) ∨ minBars = 0) →
      zigzagStep dev minBars s (i, b) = s) := by
  constructor
  · intro ht hhi hlo hgap
    simp [zigzagStep, ht, hhi, hlo, hgap]
  · intro ht hlo hhi hgap
    simp [zigzagStep, ht, hlo, hhi, hgap]

/-- **C7 witness**: a concrete Up-state loop state at bar 12 whose running
high sits at bar 10 with `min_bars = 5`: the reversal candidate is blocked
and the state is returned unchanged. -/
theorem blocked_reversal_frame_witness :
    ((1 : ℤ) = 1 ∧ ¬((99 : ℚ) > 100) ∧ (94 : ℚ) < 100 * (1 - 1/20) ∧
      ¬((12 : ℤ) - (10 : ℤ) ≥ ((5 : ℕ) : ℤ) ∨ (5 : ℕ) = 0)) ∧
    zigzagStep (1/20) 5 ⟨1, 10, 3, 100, 90, []⟩ (12, ⟨99, 94, 95, 0⟩)
      = ⟨1, 10, 3, 100, 90, []⟩ :=
  ⟨by norm_num,
   (blocked_reversal_frame (1/20) 5 12 ⟨99, 94, 95, 0⟩ ⟨1, 10, 3, 100, 90, []⟩).1
     rfl (by norm_num) (by norm_num) (by norm_num)⟩

/-- **C9 (amended).** With the momentum gate enabled, a candidate passes the
RSI check iff the RSI value at C's bar is undefined (skip = pass) or is
`≤ 70` for Bullish / `≥ 30` for Bearish.  (The source rejects only on
`rsi_val > 70` resp. `rsi_val < 30`, so the boundary values 70 and 30 pass,
unlike the claim's strict `< 70` / `> 30`.) -/
theorem rsi_gate_pass_iff (v : Option ℚ) :
    (rsiRejectBull true v = false ↔ v = none ∨ ∃ r, v = some r ∧ r ≤ 70) ∧
    (rsiRejectBear true v = false ↔ v = none ∨ ∃ r, v = some r ∧ 30 ≤ r) := by
  rcases v with - | r
  · simp [rsiRejectBull, rsiRejectBear]
  · simp [rsiRejectBull, rsiRejectBear, not_lt]

/-- **C9 counterexample**: at the boundary RSI value 70 the bullish gate
passes (and at 30 the bearish gate passes), and on `posBars` with the RSI
filter on and RSI ≡ 70 at every bar, `analyze` still produces a Bullish
Move — the claim's strict `< 70` pass condition would have discarded it. -/
theorem rsi_boundary_counterexample :
    rsiRejectBull true (some 70) = false ∧
    rsiRejectBear true (some 30) = false ∧
    (foundMoves posBars pRsi (fun _ => some 70)).any
      (fun m => m.direction == "Bullish") = true := by
  refine ⟨by with_unfolding_all decide, by with_unfolding_all decide,
    by with_unfolding_all decide⟩

/-!
## The zigzag emission invariant: strictly increasing anchors, alternating types
-/

/-- Relation between successive emitted pivots: strictly later bar anchors
and opposite types. -/
def PivRel (a b : Pivot) : Prop := a.idx < b.idx ∧ a.ptype ≠ b.ptype

/-- Loop invariant of `zigzag_pivots` before processing bar `i`: the emitted
pivots are `PivRel`-chained with anchors below `i`, and the trend flag
determines the type of the last emitted pivot and the freshness of the
corresponding running-extreme index. -/
def ZInv (s : ZigState) (i : ℕ) : Prop :=
  List.Chain' PivRel s.pivots ∧
  (∀ p ∈ s.pivots, p.idx < i) ∧
  ((s.trend = 0 ∧ s.pivots = [] ∧ s.lastHighIdx < i ∧ s.lastLowIdx < i) ∨
   (s.trend = 1 ∧ s.lastHighIdx < i ∧
      ∀ p ∈ s.pivots.getLast?, p.ptype = -1 ∧ p.idx < s.lastHighIdx) ∨
   (s.trend = -1 ∧ s.lastLowIdx < i ∧
      ∀ p ∈ s.pivots.getLast?, p.ptype = 1 ∧ p.idx < s.lastLowIdx))

lemma ZInv.mono {s : ZigState} {i j : ℕ} (h : ZInv s i) (hij : i ≤ j) : ZInv s j := by
  obtain ⟨hchain, hlt, hdisj⟩ := h
  refine ⟨hchain, fun p hp => lt_of_lt_of_le (hlt p hp) hij, ?_⟩
  rcases hdisj with ⟨h1, h2, h3, h4⟩ | ⟨h1, h2, h3⟩ | ⟨h1, h2, h3⟩
  · exact Or.inl ⟨h1, h2, lt_of_lt_of_le h3 hij, lt_of_lt_of_le h4 hij⟩
  · exact Or.inr (Or.inl ⟨h1, lt_of_lt_of_le h2 hij, h3⟩)
  · exact Or.inr (Or.inr ⟨h1, lt_of_lt_of_le h2 hij, h3⟩)

lemma chain'_concat_of_last {l : List Pivot} {q : Pivot}
    (hchain : List.Chain' PivRel l)
    (hlast : ∀ p ∈ l.getLast?, PivRel p q) :
    List.Chain' PivRel (l ++ [q]) := by
  rw [List.chain'_append]
  exact ⟨hchain, List.chain'_singleton q, fun x hx y hy => by
    rw [List.head?_cons, Option.mem_some_iff] at hy
    exact hy ▸ hlast x hx⟩

/-- One loop iteration preserves the invariant. -/
lemma zigzagStep_zinv (dev : ℚ) (mb : ℕ) (i : ℕ) (b : Bar) (s : ZigState)
    (h : ZInv s i) : ZInv (zigzagStep dev mb s (i, b)) (i + 1) := by
  obtain ⟨hchain, hlt, hdisj⟩ := h
  rcases hdisj with ⟨ht, hpiv, hhi, hlo⟩ | ⟨ht, hhi, hlast⟩ | ⟨ht, hlo, hlast⟩
  · -- Flat state
    simp only [zigzagStep, ht]
    norm_num
    split_ifs with h1 h2 h3 h4 h5
    · -- Up confirmed: emit the pending Low
      refine ⟨?_, ?_, Or.inr (Or.inl ⟨rfl, Nat.lt_succ_self i, ?_⟩)⟩
      · rw [hpiv]; simp [List.chain'_singleton]
      · intro p hp
        rw [hpiv] at hp
        simp only [List.nil_append, List.mem_singleton] at hp
        subst hp
        exact Nat.lt_succ_of_lt hlo
      · intro p hp
        rw [hpiv] at hp
        simp only [List.nil_append, List.getLast?_singleton, Option.mem_some_iff] at hp
        subst hp
        exact ⟨rfl, hlo⟩
    · -- Down confirmed: emit the pending High
      refine ⟨?_, ?_, Or.inr (Or.inr ⟨rfl, Nat.lt_succ_self i, ?_⟩)⟩
      · rw [hpiv]; simp [List.chain'_singleton]
      · intro p hp
        rw [hpiv] at hp
        simp only [List.nil_append, List.mem_singleton] at hp
        subst hp
        exact Nat.lt_succ_of_lt hhi
      · intro p hp
        rw [hpiv] at hp
        simp only [List.nil_append, List.getLast?_singleton, Option.mem_some_iff] at hp
        subst hp
        exact ⟨rfl, hhi⟩
    all_goals
      refine ⟨hchain, fun p hp => Nat.lt_succ_of_lt (hlt p hp), Or.inl ⟨?_, ?_, ?_, ?_⟩⟩ <;>
        dsimp only <;> first | rfl | exact hpiv | omega
  · -- Up state
    simp only [zigzagStep, ht]
    norm_num
    split_ifs with h1 h2 h3
    · -- extend the running high
      refine ⟨hchain, fun p hp => Nat.lt_succ_of_lt (hlt p hp),
        Or.inr (Or.inl ⟨rfl, Nat.lt_succ_self i, fun p hp => ?_⟩)⟩
      obtain ⟨hty, hidx⟩ := hlast p hp
      exact ⟨hty, lt_trans hidx hhi⟩
    · -- accepted reversal: emit the running High, switch to Down
      refine ⟨chain'_concat_of_last hchain (fun p hp => ?_), ?_,
        Or.inr (Or.inr ⟨rfl, Nat.lt_succ_self i, fun p hp => ?_⟩)⟩
      · obtain ⟨hty, hidx⟩ := hlast p hp
        exact ⟨hidx, by simp [hty]⟩
      · intro p hp
        rcases List.mem_append.mp hp with hp | hp
        · exact Nat.lt_succ_of_lt (hlt p hp)
        · simp only [List.mem_singleton] at hp
          subst hp
          exact Nat.lt_succ_of_lt hhi
      · rw [List.getLast?_concat, Option.mem_some_iff] at hp
        subst hp
        exact ⟨rfl, hhi⟩
    · -- blocked reversal: no change
      exact ZInv.mono ⟨hchain, hlt, Or.inr (Or.inl ⟨ht, hhi, hlast⟩)⟩ (Nat.le_succ i)
    · -- no candidate: no change
      exact ZInv.mono ⟨hchain, hlt, Or.inr (Or.inl ⟨ht, hhi, hlast⟩)⟩ (Nat.le_succ i)
  · -- Down state
    simp only [zigzagStep, ht]
    norm_num
    split_ifs with h1 h2 h3
    · refine ⟨hchain, fun p hp => Nat.lt_succ_of_lt (hlt p hp),
        Or.inr (Or.inr ⟨rfl, Nat.lt_succ_self i, fun p hp => ?_⟩)⟩
      obtain ⟨hty, hidx⟩ := hlast p hp
      exact ⟨hty, lt_trans hidx hlo⟩
    · refine ⟨chain'_concat_of_last hchain (fun p hp => ?_), ?_,
        Or.inr (Or.inl ⟨rfl, Nat.lt_succ_self i, fun p hp => ?_⟩)⟩
      · obtain ⟨hty, hidx⟩ := hlast p hp
        exact ⟨hidx, by simp [hty]⟩
      · intro p hp
        rcases List.mem_append.mp hp with hp | hp
        · exact Nat.lt_succ_of_lt (hlt p hp)
        · simp only [List.mem_singleton] at hp
          subst hp
          exact Nat.lt_succ_of_lt hlo
      · rw [List.getLast?_concat, Option.mem_some_iff] at hp
        subst hp
        exact ⟨rfl, hlo⟩
    · exact ZInv.mono ⟨hchain, hlt, Or.inr (Or.inr ⟨ht, hlo, hlast⟩)⟩ (Nat.le_succ i)
    · exact ZInv.mono ⟨hchain, hlt, Or.inr (Or.inr ⟨ht, hlo, hlast⟩)⟩ (Nat.le_succ i)

/-- The invariant holds after folding the loop body over bars `i, i+1, …`. -/
lemma foldl_zinv (dev : ℚ) (mb : ℕ) :
    ∀ (l : List Bar) (i : ℕ) (s : ZigState), ZInv s i →
      ZInv ((List.enumFrom i l).foldl (zigzagStep dev mb) s) (i + l.length) := by
  intro l
  induction l with
  | nil => intro i s h; simpa [List.enumFrom] using h
  | cons b t ih =>
    intro i s h
    have h2 := ih (i + 1) _ (zigzagStep_zinv dev mb i b s h)
    have harith : i + (b :: t).length = i + 1 + t.length := by
      simp [List.length_cons]; omega
    rw [harith]
    simpa [List.enumFrom] using h2

/-- Master invariant of a full `zigzag_pivots` run: the emitted pivot list is
`PivRel`-chained (strictly increasing anchors, alternating types) and every
anchor is a valid bar index. -/
lemma zigzag_invariant (bars : List Bar) (dev : ℚ) (mb : ℕ) :
    List.Chain' PivRel (zigzagPivots bars dev mb) ∧
    ∀ p ∈ zigzagPivots bars dev mb, p.idx < bars.length := by
  cases bars with
  | nil => simp [zigzagPivots]
  | cons b0 rest =>
    have hinit : ZInv ⟨0, 0, 0, b0.high, b0.low, []⟩ 1 :=
      ⟨by simp, by simp, Or.inl ⟨rfl, rfl, Nat.zero_lt_one, Nat.zero_lt_one⟩⟩
    have hfold := foldl_zinv dev mb rest 1 _ hinit
    obtain ⟨hchain, hlt, hdisj⟩ := hfold
    have hlen : 1 + rest.length = (b0 :: rest).length := by
      simp [List.length_cons]; omega
    rw [hlen] at hlt hdisj
    show List.Chain' PivRel (zigzagFinal _) ∧ ∀ p ∈ zigzagFinal _, p.idx < _
    rcases hdisj with ⟨ht, -, -, -⟩ | ⟨ht, hhi, hlast⟩ | ⟨ht, hlo, hlast⟩
    · rw [zigzagFinal, if_neg (by rw [ht]; decide), if_neg (by rw [ht]; decide)]
      exact ⟨hchain, hlt⟩
    · rw [zigzagFinal, if_pos ht]
      refine ⟨chain'_concat_of_last hchain (fun p hp => ?_), fun p hp => ?_⟩
      · obtain ⟨hty, hidx⟩ := hlast p hp
        exact ⟨hidx, by simp [hty]⟩
      · rcases List.mem_append.mp hp with hp | hp
        · exact hlt p hp
        · simp only [List.mem_singleton] at hp
          subst hp
          exact hhi
    · rw [zigzagFinal, if_neg (by rw [ht]; decide), if_pos ht]
      refine ⟨chain'_concat_of_last hchain (fun p hp => ?_), fun p hp => ?_⟩
      · obtain ⟨hty, hidx⟩ := hlast p hp
        exact ⟨hidx, by simp [hty]⟩
      · rcases List.mem_append.mp hp with hp | hp
        · exact hlt p hp
        · simp only [List.mem_singleton] at hp
          subst hp
          exact hlo

/-- Reading a pivot list with strictly increasing in-range anchors back out
of the per-bar arrays reproduces the list: no write ever overwrites
another. -/
lemma readback_aux :
    ∀ (l : List Pivot) (a n : ℕ),
      List.Pairwise (fun x y : Pivot => x.idx < y.idx) l →
      (∀ p ∈ l, a ≤ p.idx ∧ p.idx < n) →
      (List.range' a (n - a)).filterMap
        (fun j => (l.filter (fun q => q.idx == j)).getLast?) = l := by
  intro l
  induction l with
  | nil =>
    intro a n _ _
    refine List.filterMap_eq_nil_iff.mpr (fun j _ => ?_)
    simp
  | cons p t ih =>
    intro a n hpw hb
    obtain ⟨hap, hpn⟩ := hb p (List.mem_cons_self p t)
    obtain ⟨hrel, hpwt⟩ := List.pairwise_cons.mp hpw
    have e1 : n - a = (n - p.idx) + (p.idx - a) := by omega
    have e2 : n - p.idx = (n - (p.idx + 1)) + 1 := by omega
    have e3 : a + (p.idx - a) = p.idx := by omega
    rw [e1, ← List.range'_append_1, e3, e2, List.range'_succ, List.filterMap_append,
      List.filterMap_cons]
    have hfirst : (List.range' a (p.idx - a)).filterMap
        (fun j => ((p :: t).filter (fun q => q.idx == j)).getLast?) = [] := by
      refine List.filterMap_eq_nil_iff.mpr (fun j hj => ?_)
      obtain ⟨k, hk, rfl⟩ := List.mem_range'.mp hj
      have hfil : (p :: t).filter (fun q => q.idx == a + 1 * k) = [] := by
        refine List.filter_eq_nil_iff.mpr (fun q hq => ?_)
        rcases List.mem_cons.mp hq with rfl | hq
        · simp only [beq_iff_eq]; omega
        · have := hrel q hq
          simp only [beq_iff_eq]; omega
      rw [hfil]; rfl
    have hhead : ((p :: t).filter (fun q => q.idx == p.idx)).getLast? = some p := by
      have hfil : t.filter (fun q => q.idx == p.idx) = [] :=
        List.filter_eq_nil_iff.mpr (fun q hq => by
          have := hrel q hq
          simp only [beq_iff_eq]; omega)
      rw [List.filter_cons_of_pos (by simp), hfil]
      rfl
    have htail : (List.range' (p.idx + 1) (n - (p.idx + 1))).filterMap
        (fun j => ((p :: t).filter (fun q => q.idx == j)).getLast?) = t := by
      rw [List.filterMap_congr (g := fun j => (t.filter (fun q => q.idx == j)).getLast?)
        (fun j hj => ?_)]
      · exact ih (p.idx + 1) n hpwt (fun q hq =>
          ⟨hrel q hq, (hb q (List.mem_cons_of_mem p hq)).2⟩)
      · obtain ⟨k, hk, rfl⟩ := List.mem_range'.mp hj
        rw [List.filter_cons_of_neg (by simp only [beq_iff_eq]; omega)]
    rw [hfirst, hhead, htail]
    rfl

/-- **C1.** In every pivot sequence produced by `zigzag_pivots` — for any
bar series and any deviation / minimum-bar parameters, including the final
forced end-of-series pivot — no two consecutive pivots share the same type. -/
theorem pivot_types_alternate (bars : List Bar) (dev : ℚ) (minBars : ℕ) :
    List.Chain' (fun a b : Pivot => a.ptype ≠ b.ptype)
      (zigzagPivots bars dev minBars) :=
  ((zigzag_invariant bars dev minBars).1).imp (fun _ _ h => h.2)

/-- **C10.** The bar anchors of the pivots emitted by `zigzag_pivots` are
strictly increasing in emission order — so no two pivots (the final forced
one included) share a bar — and consequently writing them to the per-bar
value/type arrays and reading those back never overwrites one pivot with
another: the read-back list equals the emission-order list. -/
theorem pivot_indices_strictly_increasing (bars : List Bar) (dev : ℚ)
    (minBars : ℕ) :
    List.Pairwise (fun a b : Pivot => a.idx < b.idx)
      (zigzagPivots bars dev minBars) ∧
    pivotData bars.length (zigzagPivots bars dev minBars) =
      zigzagPivots bars dev minBars := by
  have hchain : List.Chain' (fun a b : Pivot => a.idx < b.idx)
      (zigzagPivots bars dev minBars) :=
    ((zigzag_invariant bars dev minBars).1).imp (fun _ _ h => h.1)
  haveI : IsTrans Pivot (fun a b : Pivot => a.idx < b.idx) :=
    ⟨fun _ _ _ h1 h2 => lt_trans h1 h2⟩
  have hpw := List.chain'_iff_pairwise.mp hchain
  refine ⟨hpw, ?_⟩
  have := readback_aux (zigzagPivots bars dev minBars) 0 bars.length hpw
    (fun p hp => ⟨Nat.zero_le _, (zigzag_invariant bars dev minBars).2 p hp⟩)
  rw [pivotData, List.range_eq_range']
  simpa using this

/-!
## Strictly increasing series: no reversal is ever confirmed
-/

/-- A bar strictly dominates its predecessor in both the high and the low. -/
def StrictIncr (x y : Bar) : Prop := x.high < y.high ∧ x.low < y.low

instance : DecidableRel StrictIncr := fun _ _ => instDecidableAnd

/-- Well-formedness of a bar table: each bar's low is at most its high. -/
def BarsWF (l : List Bar) : Prop := ∀ b ∈ l, b.low ≤ b.high

instance : ∀ l, Decidable (BarsWF l) := fun l => List.decidableBAll _ l

/-- Invariant of a `zigzag_pivots` run over a strictly increasing
well-formed series, after processing bars up to the one at index `j`
(`bprev`): the running high tracks the latest bar, the running low stays at
bar 0, and the trend is Flat with nothing emitted or Up with exactly the
initial confirmation Low emitted. -/
def C8Inv (b0 bprev : Bar) (j : ℕ) (s : ZigState) : Prop :=
  s.lastHigh = bprev.high ∧ s.lastLow = b0.low ∧ s.lastLowIdx = 0 ∧
  s.lastHighIdx = j ∧
  ((s.trend = 0 ∧ s.pivots = []) ∨ (s.trend = 1 ∧ s.pivots = [⟨0, -1, b0.low⟩]))

/-- One step preserves the strictly-increasing-series invariant: the Flat
state can only confirm Up (never Down), and the Up state always extends. -/
lemma c8_step (dev : ℚ) (mb : ℕ) (hdev : 0 ≤ dev) (b0 bprev b : Bar) (j : ℕ)
    (s : ZigState) (hwfp : bprev.low ≤ bprev.high)
    (h0p : b0.low ≤ bprev.low) (hinc : StrictIncr bprev b)
    (hinv : C8Inv b0 bprev j s) :
    C8Inv b0 b (j + 1) (zigzagStep dev mb s (j + 1, b)) := by
  obtain ⟨hH, hL, hLi, hHi, hdisj⟩ := hinv
  obtain ⟨hih, hil⟩ := hinc
  rcases hdisj with ⟨ht, hpiv⟩ | ⟨ht, hpiv⟩
  · -- Flat state
    simp only [zigzagStep, ht]
    norm_num
    split_ifs with h1 h2 h3 h4 h5
    · -- Up confirmed: the pending Low at the series start is emitted
      exact ⟨rfl, hL, hLi, rfl, Or.inr ⟨rfl, by simp [hpiv, hLi, hL]⟩⟩
    · -- Down confirmation is impossible on a strictly increasing series
      exfalso
      rw [hL] at h1
      rw [hH] at h2
      have hprod : 0 ≤ dev * (bprev.high - b0.low) :=
        mul_nonneg hdev (by linarith)
      push_neg at h1
      nlinarith [h1, h2, hprod]
    · -- both checks failed, extremes update: the high always extends,
      -- the low never falls
      exfalso
      rw [hH] at h3
      dsimp only at h4
      rw [hL] at h4
      linarith
    · exact ⟨rfl, hL, hLi, rfl, Or.inl ⟨rfl, hpiv⟩⟩
    · -- the high must have extended
      exfalso
      rw [hH] at h3
      exact h3 hih
    · exfalso
      rw [hH] at h3
      exact h3 hih
  · -- Up state: the current high always exceeds the running high
    simp only [zigzagStep, ht]
    norm_num
    split_ifs with h1 h2 h3
    · exact ⟨rfl, hL, hLi, rfl, Or.inr ⟨rfl, hpiv⟩⟩
    all_goals (exfalso; rw [hH] at h1; exact h1 hih)

/-- Folding the loop over a strictly increasing tail preserves the
invariant, tracking the most recent bar. -/
lemma c8_fold (dev : ℚ) (mb : ℕ) (hdev : 0 ≤ dev) (b0 : Bar) :
    ∀ (l : List Bar) (bprev : Bar) (j : ℕ) (s : ZigState),
      bprev.low ≤ bprev.high → b0.low ≤ bprev.low →
      List.Chain StrictIncr bprev l → (∀ b ∈ l, b.low ≤ b.high) →
      C8Inv b0 bprev j s →
      C8Inv b0 (l.getLastD bprev) (j + l.length)
        ((List.enumFrom (j + 1) l).foldl (zigzagStep dev mb) s) := by
  intro l
  induction l with
  | nil =>
    intro bprev j s _ _ _ _ hinv
    simpa [List.enumFrom] using hinv
  | cons b t ih =>
    intro bprev j s hwfp h0p hchain hwf hinv
    rcases hchain with _ | ⟨hincpb, hchain⟩
    have hstep := c8_step dev mb hdev b0 bprev b j s hwfp h0p hincpb hinv
    have hnext := ih b (j + 1) _ (hwf b (List.mem_cons_self b t))
      (le_of_lt (lt_of_le_of_lt h0p hincpb.2)) hchain
      (fun x hx => hwf x (List.mem_cons_of_mem b hx)) hstep
    have harith : j + (b :: t).length = j + 1 + t.length := by
      simp [List.length_cons]; omega
    rw [harith, List.getLastD_cons]
    simpa [List.enumFrom] using hnext

/-- **C8 (amended).** On a well-formed, strictly monotonically increasing
bar series (highs and lows both rising bar over bar) with a non-negative
deviation threshold, `zigzag_pivots` never confirms a reversal: the output
is either empty (trend never confirmed) or exactly the initial
trend-confirmation Low anchored at bar 0 followed by the forced
end-of-series High anchored at the last bar.  (The claim's further assertion
that any non-final pivot "arises at series end" fails: the confirmation Low
is anchored at bar 0 and emitted mid-scan; see the counterexample.) -/
theorem mono_series_no_reversal (bars : List Bar) (dev : ℚ) (mb : ℕ)
    (hdev : 0 ≤ dev) (hwf : BarsWF bars) (hinc : List.Chain' StrictIncr bars) :
    zigzagPivots bars dev mb = [] ∨
    ∃ b0 blast, bars.head? = some b0 ∧ bars.getLast? = some blast ∧
      zigzagPivots bars dev mb =
        [⟨0, -1, b0.low⟩, ⟨bars.length - 1, 1, blast.high⟩] := by
  cases bars with
  | nil => exact Or.inl rfl
  | cons b0 rest =>
    have hwf0 : b0.low ≤ b0.high := hwf b0 (List.mem_cons_self b0 rest)
    have hchain : List.Chain StrictIncr b0 rest := hinc
    have hinv0 : C8Inv b0 b0 0 ⟨0, 0, 0, b0.high, b0.low, []⟩ :=
      ⟨rfl, rfl, rfl, rfl, Or.inl ⟨rfl, rfl⟩⟩
    have hfold := c8_fold dev mb hdev b0 rest b0 0 _ hwf0 (le_refl b0.low)
      hchain (fun x hx => hwf x (List.mem_cons_of_mem b0 hx)) hinv0
    obtain ⟨hH, hL, hLi, hHi, hdisj⟩ := hfold
    have hz : zigzagPivots (b0 :: rest) dev mb =
        zigzagFinal ((List.enumFrom (0 + 1) rest).foldl (zigzagStep dev mb)
          ⟨0, 0, 0, b0.high, b0.low, []⟩) := rfl
    rcases hdisj with ⟨ht, hpiv⟩ | ⟨ht, hpiv⟩
    · left
      rw [hz, zigzagFinal, if_neg (by rw [ht]; decide), if_neg (by rw [ht]; decide)]
      exact hpiv
    · right
      refine ⟨b0, rest.getLastD b0, rfl, ?_, ?_⟩
      · rw [List.getLast?_cons, List.getLastD_eq_getLast?]
      · rw [hz, zigzagFinal, if_pos ht, hpiv, hHi, hH]
        have hlen : (b0 :: rest).length - 1 = 0 + rest.length := by
          simp [List.length_cons]
        rw [hlen]
        rfl

/-- **C8 counterexample**: on the strictly increasing well-formed series
`incBars` (deviation 1/20, min bars 0) the detector emits two pivots; the
first — the trend-confirmation Low — is not the final forced pivot and is
anchored at bar 0, not at series end, refuting the claim's assertion that
the only pivot other than the final forced one arises at series end. -/
theorem mono_series_counterexample :
    BarsWF incBars ∧ List.Chain' StrictIncr incBars ∧
    zigzagPivots incBars (1/20) 0 = [⟨0, -1, 5⟩, ⟨2, 1, 30⟩] ∧
    (0 : ℕ) ≠ incBars.length - 1 := by
  refine ⟨by decide, by norm_num [incBars, StrictIncr, List.chain'_cons],
    by with_unfolding_all decide, by decide⟩

/-- **C8 witness**: the amended no-reversal theorem instantiated on
`incBars`. -/
theorem mono_series_no_reversal_witness :
    (0 ≤ (1/20 : ℚ) ∧ BarsWF incBars ∧ List.Chain' StrictIncr incBars) ∧
    (zigzagPivots incBars (1/20) 0 = [] ∨
     ∃ b0 blast, incBars.head? = some b0 ∧ incBars.getLast? = some blast ∧
       zigzagPivots incBars (1/20) 0 =
         [⟨0, -1, b0.low⟩, ⟨incBars.length - 1, 1, blast.high⟩]) :=
  ⟨⟨by norm_num, by decide, by norm_num [incBars, StrictIncr, List.chain'_cons]⟩,
   mono_series_no_reversal incBars (1/20) 0 (by norm_num) (by decide)
     (by norm_num [incBars, StrictIncr, List.chain'_cons])⟩
